import Mathlib

/-!
Verification of the SymbolWindow incremental symbol indexing and search engine
(`src/shared/db/database.ts`, `src/features/symbol/indexer/indexer.ts`).

The persistent store is an embedded SQLite database accessed through Node's
`node:sqlite` `DatabaseSync` (which enables foreign-key constraint enforcement
by default, so the schema's `ON DELETE CASCADE` on `symbols.file_id` is live).
We model the two tables `files` and `symbols` as lists of rows together with
the next AUTOINCREMENT rowids, and each SQL statement of the source as a
state-passing function on that store.
-/

namespace SymbolWindow

/-- The per-symbol payload of a `symbols` row: the fields of the source's
`SymbolRecord` other than the store-assigned `id` and `file_id`
(`Omit<SymbolRecord, 'id' | 'file_id'>` in `database.ts`). -/
structure SymbolData where
  name : String
  detail : String
  kind : Nat
  range_start_line : Nat
  range_start_char : Nat
  range_end_line : Nat
  range_end_char : Nat
  selection_range_start_line : Nat
  selection_range_start_char : Nat
  selection_range_end_line : Nat
  selection_range_end_char : Nat
  container_name : String
deriving DecidableEq, Repr

/-- A row of the `files` table (`FileRecord` in `database.ts`). -/
structure FileRow where
  id : Nat
  path : String
  mtime : Nat
  indexed_at : Nat
deriving DecidableEq, Repr

/-- A row of the `symbols` table (`SymbolRecord` in `database.ts`), with the
data columns grouped in `SymbolData`. -/
structure SymbolRow where
  id : Nat
  file_id : Nat
  data : SymbolData
deriving DecidableEq, Repr

/-- The SQLite store: the two tables created by `SymbolDatabase.createTables`,
plus the next AUTOINCREMENT rowid of each table. -/
structure Store where
  files : List FileRow
  symbols : List SymbolRow
  nextFileId : Nat
  nextSymId : Nat
deriving DecidableEq, Repr

/-- Rowids are assigned by SQLite AUTOINCREMENT, so every row id already in a
table is below the table's next rowid, and every `symbols.file_id` was obtained
as `lastInsertRowid` of an earlier `files` insert. -/
def WellFormed (st : Store) : Prop :=
  (∀ f ∈ st.files, f.id < st.nextFileId) ∧ (∀ s ∈ st.symbols, s.file_id < st.nextFileId)

instance : DecidablePred WellFormed := fun _ =>
  inferInstanceAs (Decidable (_ ∧ _))

/-- Source `SymbolDatabase.deleteFile` / `deleteFileStmt`:
`DELETE FROM files WHERE path = ?`.  The schema declares
`FOREIGN KEY(file_id) REFERENCES files(id) ON DELETE CASCADE` on `symbols`
(and `node:sqlite` enforces foreign keys by default), so deleting a `files`
row also deletes every `symbols` row referencing its id. -/
def deleteFileStore (p : String) (st : Store) : Store :=
  { st with
    files := st.files.filter (fun f => !(f.path == p))
    symbols := st.symbols.filter
      (fun s => !(st.files.any (fun f => f.path == p && f.id == s.file_id))) }

/-- Source `insertFileStmt`: `INSERT INTO files (path, mtime, indexed_at) VALUES (?,?,?)`;
the new row receives the next AUTOINCREMENT rowid (`lastInsertRowid`). -/
def insertFileRow (p : String) (m t : Nat) (st : Store) : Store :=
  { st with
    files := st.files ++ [⟨st.nextFileId, p, m, t⟩]
    nextFileId := st.nextFileId + 1 }

/-- Source `insertSymbolStmt`: one `INSERT INTO symbols (...) VALUES (...)` carrying a
`file_id` and the data columns. -/
def insertSymbolRow (fid : Nat) (d : SymbolData) (st : Store) : Store :=
  { st with
    symbols := st.symbols ++ [⟨st.nextSymId, fid, d⟩]
    nextSymId := st.nextSymId + 1 }

/-- deleteFileStore leaves the files table's other rows and both counters
unchanged; only rows at path `p` (and their symbols) are removed. -/
theorem deleteFileStore_counters (p : String) (st : Store) :
    (deleteFileStore p st).nextFileId = st.nextFileId ∧
    (deleteFileStore p st).nextSymId = st.nextSymId := ⟨rfl, rfl⟩

/-! ### `SymbolDatabase.insertFileAndSymbols`

The source wraps the per-file update in `BEGIN` ... `COMMIT` with a
`catch { ROLLBACK; throw }`: first `deleteFileStmt.run(filePath)`, then
`insertFileStmt.run(filePath, mtime, Date.now())` capturing `lastInsertRowid`,
then the symbol rows in chunks of `chunkSize = 100`, one prepared
`insertSymbolStmt.run(...)` per row.  We model a possible exception with an
oracle `failAt : Option Nat` giving the index of the first statement of the
transaction body that raises (0 = the delete, 1 = the file insert, `2 + i` =
the insert of symbol `i`); `none`, or an index past the last statement, means
no exception.  On an exception the `ROLLBACK` discards every statement already
applied, so the call returns the original store with success flag `false`. -/

/-- The inner `for (const sym of chunk)` loop: run `insertSymbolStmt` for each
symbol in turn, `idx` being the transaction-statement index of the next insert;
`none` when the failure oracle fires on one of these statements. -/
def insertSymsLoop (fid : Nat) (failAt : Option Nat) :
    List SymbolData → Nat → Store → Option Store
  | [], _, st => some st
  | d :: rest, idx, st =>
    if failAt = some idx then none
    else insertSymsLoop fid failAt rest (idx + 1) (insertSymbolRow fid d st)

/-- The outer chunking loop of `insertFileAndSymbols`:
`for (let i = 0; i < symbols.length; i += chunkSize)` with
`chunk = symbols.slice(i, i + chunkSize)` and `chunkSize = 100`.  Each
iteration removes at least one symbol, so recursion on a fuel of
`syms.length` (supplied by `insertSymsChunked` below) reproduces the loop
exactly; the `0`/nonempty branch is unreachable under that fuel. -/
def insertSymsChunkedF (fid : Nat) (failAt : Option Nat) :
    Nat → List SymbolData → Nat → Store → Option Store
  | _, [], _, st => some st
  | 0, _ :: _, _, _ => none
  | fuel + 1, d :: rest, idx, st =>
    match insertSymsLoop fid failAt ((d :: rest).take 100) idx st with
    | none => none
    | some st' =>
      insertSymsChunkedF fid failAt fuel ((d :: rest).drop 100)
        (idx + ((d :: rest).take 100).length) st'

/-- The chunking loop over the full symbol list. -/
def insertSymsChunked (fid : Nat) (failAt : Option Nat)
    (syms : List SymbolData) (idx : Nat) (st : Store) : Option Store :=
  insertSymsChunkedF fid failAt syms.length syms idx st

/-- Source `SymbolDatabase.insertFileAndSymbols(filePath, mtime, symbols)`; `now` is
the `Date.now()` read for `indexed_at`.  Returns the store after the call and
`true` on `COMMIT`, or the original store and `false` when an exception made
the `catch` branch run `ROLLBACK` and rethrow. -/
def insertFileAndSymbols (p : String) (m now : Nat) (L : List SymbolData)
    (failAt : Option Nat) (st : Store) : Store × Bool :=
  let body : Option Store :=
    if failAt = some 0 then none
    else
      let st1 := deleteFileStore p st
      if failAt = some 1 then none
      else
        let fid := st1.nextFileId
        let st2 := insertFileRow p m now st1
        insertSymsChunked fid failAt L 2 st2
  match body with
  | some st' => (st', true)
  | none => (st, false)

/-- The symbol rows built by a successful run of the insert loop: consecutive
rowids from `sid`, all owned by `fid`, data in list order. -/
def mkRows (fid : Nat) : List SymbolData → Nat → List SymbolRow
  | [], _ => []
  | d :: rest, sid => ⟨sid, fid, d⟩ :: mkRows fid rest (sid + 1)

theorem mkRows_map_data (fid : Nat) (L : List SymbolData) (sid : Nat) :
    (mkRows fid L sid).map SymbolRow.data = L := by
  induction L generalizing sid with
  | nil => rfl
  | cons d rest ih => simp [mkRows, ih]

theorem mkRows_file_id (fid : Nat) (L : List SymbolData) (sid : Nat) :
    ∀ r ∈ mkRows fid L sid, r.file_id = fid := by
  induction L generalizing sid with
  | nil => intro r hr; cases hr
  | cons d rest ih =>
    intro r hr
    rcases List.mem_cons.mp hr with h | h
    · subst h; rfl
    · exact ih (sid + 1) r h

/-- A completed insert loop appends exactly the `mkRows` rows, touching neither
the files table nor the file counter. -/
theorem insertSymsLoop_some (fid : Nat) (failAt : Option Nat)
    (L : List SymbolData) (idx : Nat) (st st' : Store)
    (h : insertSymsLoop fid failAt L idx st = some st') :
    st' = { st with
            symbols := st.symbols ++ mkRows fid L st.nextSymId
            nextSymId := st.nextSymId + L.length } := by
  induction L generalizing idx st with
  | nil =>
    simp only [insertSymsLoop] at h
    cases st
    simp_all [mkRows]
  | cons d rest ih =>
    simp only [insertSymsLoop] at h
    split at h
    · exact absurd h (by simp)
    · have := ih (idx + 1) (insertSymbolRow fid d st) h
      cases st
      simp_all [insertSymbolRow, mkRows]
      omega

/-- Splitting the insert loop over an append, with statement indices carried
through: this is what makes chunked insertion equivalent to a single pass. -/
theorem insertSymsLoop_append (fid : Nat) (failAt : Option Nat)
    (A B : List SymbolData) (idx : Nat) (st : Store) :
    insertSymsLoop fid failAt (A ++ B) idx st =
      (insertSymsLoop fid failAt A idx st).bind
        (insertSymsLoop fid failAt B (idx + A.length)) := by
  induction A generalizing idx st with
  | nil => simp [insertSymsLoop]
  | cons d rest ih =>
    simp only [List.cons_append, insertSymsLoop]
    split
    · rfl
    · simp only [List.append_eq] at *
      rw [ih]
      simp only [List.length_cons]
      have harith : idx + 1 + rest.length = idx + (rest.length + 1) := by omega
      rw [harith]

/-- Fixed-size chunking is a reassociation of the same sequence of inserts:
the chunked loop computes exactly what one pass over the whole list computes. -/
theorem insertSymsChunkedF_eq_loop (fid : Nat) (failAt : Option Nat)
    (fuel : Nat) :
    ∀ (L : List SymbolData) (idx : Nat) (st : Store), L.length ≤ fuel →
      insertSymsChunkedF fid failAt fuel L idx st = insertSymsLoop fid failAt L idx st := by
  induction fuel with
  | zero =>
    intro L idx st h
    have hL : L = [] := List.eq_nil_of_length_eq_zero (Nat.le_zero.mp h)
    subst hL
    simp [insertSymsChunkedF, insertSymsLoop]
  | succ n ih =>
    intro L idx st h
    match L with
    | [] => simp [insertSymsChunkedF, insertSymsLoop]
    | d :: rest =>
      rw [insertSymsChunkedF]
      conv_rhs =>
        rw [show (d :: rest) = (d :: rest).take 100 ++ (d :: rest).drop 100 from
          (List.take_append_drop _ _).symm]
      rw [insertSymsLoop_append]
      cases hsplit : insertSymsLoop fid failAt ((d :: rest).take 100) idx st with
      | none => simp
      | some st' =>
        simp only [Option.bind_some]
        refine ih _ _ _ ?_
        simp only [List.length_drop, List.length_cons] at h ⊢
        omega

theorem insertSymsChunked_eq_loop (fid : Nat) (failAt : Option Nat)
    (L : List SymbolData) (idx : Nat) (st : Store) :
    insertSymsChunked fid failAt L idx st = insertSymsLoop fid failAt L idx st :=
  insertSymsChunkedF_eq_loop fid failAt L.length L idx st le_rfl

/-- When the transaction commits, the store is exactly: the old store with the
path's rows (and their symbols) deleted, the new `files` row appended, and the
new symbol rows appended. -/
theorem insertFileAndSymbols_success_shape (p : String) (m now : Nat)
    (L : List SymbolData) (failAt : Option Nat) (st st' : Store)
    (h : insertFileAndSymbols p m now L failAt st = (st', true)) :
    st' = { files := (deleteFileStore p st).files ++ [⟨st.nextFileId, p, m, now⟩]
            symbols := (deleteFileStore p st).symbols ++ mkRows st.nextFileId L st.nextSymId
            nextFileId := st.nextFileId + 1
            nextSymId := st.nextSymId + L.length } := by
  unfold insertFileAndSymbols at h
  by_cases h0 : failAt = some 0
  · simp [h0] at h
  · by_cases h1 : failAt = some 1
    · simp [h0, h1] at h
    · simp only [h0, h1, if_false, if_neg] at h
      rw [insertSymsChunked_eq_loop] at h
      cases hloop : insertSymsLoop (deleteFileStore p st).nextFileId failAt L 2
          (insertFileRow p m now (deleteFileStore p st)) with
      | none => rw [hloop] at h; simp at h
      | some s =>
        rw [hloop] at h
        simp only [Prod.mk.injEq] at h
        have hs := insertSymsLoop_some _ _ _ _ _ _ hloop
        rw [← h.1, hs]
        simp [insertFileRow, deleteFileStore]

/-- When any statement of the transaction raises, the `ROLLBACK` in the catch
branch restores the pre-call store. -/
theorem insertFileAndSymbols_rollback (p : String) (m now : Nat)
    (L : List SymbolData) (failAt : Option Nat) (st st' : Store)
    (h : insertFileAndSymbols p m now L failAt st = (st', false)) :
    st' = st := by
  unfold insertFileAndSymbols at h
  by_cases h0 : failAt = some 0
  · simp [h0] at h
    exact h.symm
  · by_cases h1 : failAt = some 1
    · simp [h0, h1] at h
      exact h.symm
    · simp only [h0, h1, if_false, if_neg] at h
      split at h
      · simp at h
      · simp only [Prod.mk.injEq] at h
        exact h.1.symm

theorem mkRows_filter_ne (fid j : Nat) (L : List SymbolData) (sid : Nat)
    (h : j ≠ fid) :
    (mkRows fid L sid).filter (fun s => s.file_id == j) = [] := by
  rw [List.filter_eq_nil_iff]
  intro r hr
  have := mkRows_file_id fid L sid r hr
  simp [this, Ne.symm h]

theorem mkRows_filter_eq (fid : Nat) (L : List SymbolData) (sid : Nat) :
    (mkRows fid L sid).filter (fun s => s.file_id == fid) = mkRows fid L sid := by
  refine List.filter_eq_self.mpr ?_
  intro r hr
  simp [mkRows_file_id fid L sid r hr]

/-- The id-independent content of the store: every file's path, mtime and
indexed_at together with the data columns of the symbol rows attached to it,
in insertion order. -/
def view (st : Store) : List (String × Nat × Nat × List SymbolData) :=
  st.files.map (fun f => (f.path, f.mtime, f.indexed_at,
    (st.symbols.filter (fun s => s.file_id == f.id)).map SymbolRow.data))

end SymbolWindow

namespace SymbolWindow

/-- C1: `insertFileAndSymbols` is atomic.  On a committed run the store holds
exactly one `files` row for the path (the fresh one, with the given mtime and
`indexed_at`), the rows attached to its id are exactly the given symbol list
in order, and no symbol row references any pre-call `files` row at that path;
if any statement inside the transaction raises, the store after the call is
exactly the pre-call store. -/
theorem insertFileAndSymbols_atomic (p : String) (m now : Nat)
    (L : List SymbolData) (failAt : Option Nat) (st st' : Store) (ok : Bool)
    (hwf : WellFormed st)
    (h : insertFileAndSymbols p m now L failAt st = (st', ok)) :
    (ok = true →
      st'.files.filter (fun f => f.path == p) = [⟨st.nextFileId, p, m, now⟩] ∧
      (st'.symbols.filter (fun s => s.file_id == st.nextFileId)).map SymbolRow.data = L ∧
      ∀ s ∈ st'.symbols, ∀ f ∈ st.files, f.path = p → s.file_id ≠ f.id) ∧
    (ok = false → st' = st) := by
  constructor
  · intro hok
    subst hok
    have hs := insertFileAndSymbols_success_shape p m now L failAt st st' h
    subst hs
    refine ⟨?_, ?_, ?_⟩
    · simp only [deleteFileStore, List.filter_append]
      have h1 : (st.files.filter (fun f => !(f.path == p))).filter
          (fun f => f.path == p) = [] := by
        rw [List.filter_eq_nil_iff]
        intro f hf
        have := (List.mem_filter.mp hf).2
        simp_all
      rw [h1]
      simp
    · simp only [deleteFileStore, List.filter_append]
      have h1 : ((st.symbols.filter
          (fun s => !(st.files.any (fun f => f.path == p && f.id == s.file_id)))).filter
          (fun s => s.file_id == st.nextFileId)) = [] := by
        rw [List.filter_eq_nil_iff]
        intro s hs
        have hmem := (List.mem_filter.mp hs).1
        have hlt := hwf.2 s hmem
        simp
        omega
      rw [h1, mkRows_filter_eq]
      simp [mkRows_map_data]
    · intro s hs' f hf hfp
      rcases List.mem_append.mp hs' with hmem | hmem
      · have hcond := (List.mem_filter.mp hmem).2
        intro heq
        have : st.files.any (fun g => g.path == p && g.id == s.file_id) = true :=
          List.any_eq_true.mpr ⟨f, hf, by simp [hfp, heq]⟩
        simp [this] at hcond
      · have hfid := mkRows_file_id _ _ _ s hmem
        have hlt := hwf.1 f hf
        omega
  · intro hok
    subst hok
    exact insertFileAndSymbols_rollback p m now L failAt st st' h

/-- With no exception the insert loop always completes, appending the rows. -/
theorem insertSymsLoop_none (fid : Nat) (L : List SymbolData) (idx : Nat)
    (st : Store) :
    insertSymsLoop fid none L idx st =
      some { st with symbols := st.symbols ++ mkRows fid L st.nextSymId
                     nextSymId := st.nextSymId + L.length } := by
  induction L generalizing idx st with
  | nil =>
    cases st
    simp [insertSymsLoop, mkRows]
  | cons d rest ih =>
    rw [insertSymsLoop]
    simp only [reduceCtorEq, if_false]
    rw [ih]
    cases st
    simp [insertSymbolRow, mkRows]
    omega

/-- An exception-free `insertFileAndSymbols` call commits and produces the
delete-then-insert store. -/
theorem insertFileAndSymbols_none_eq (p : String) (m now : Nat)
    (L : List SymbolData) (st : Store) :
    insertFileAndSymbols p m now L none st =
      ({ files := (deleteFileStore p st).files ++ [⟨st.nextFileId, p, m, now⟩]
         symbols := (deleteFileStore p st).symbols ++ mkRows st.nextFileId L st.nextSymId
         nextFileId := st.nextFileId + 1
         nextSymId := st.nextSymId + L.length }, true) := by
  unfold insertFileAndSymbols
  simp only [reduceCtorEq, if_false]
  rw [insertSymsChunked_eq_loop, insertSymsLoop_none]
  simp [insertFileRow, deleteFileStore]

/-- Witness for C1 at a concrete input: a store holding path "a" (id 0, one
symbol) is atomically replaced by a fresh row (id 1) carrying one new symbol. -/
theorem insertFileAndSymbols_atomic_witness :
    WellFormed (Store.mk [FileRow.mk 0 "a" 1 1]
      [SymbolRow.mk 0 0 (SymbolData.mk "old" "" 1 0 0 0 0 0 0 0 0 "")] 1 1) ∧
    ((Store.mk [FileRow.mk 1 "a" 5 6]
        [SymbolRow.mk 1 1 (SymbolData.mk "new" "d" 2 1 2 3 4 1 2 3 4 "C")] 2 2).files.filter
        (fun f => f.path == "a") = [FileRow.mk 1 "a" 5 6] ∧
      ((Store.mk [FileRow.mk 1 "a" 5 6]
        [SymbolRow.mk 1 1 (SymbolData.mk "new" "d" 2 1 2 3 4 1 2 3 4 "C")] 2 2).symbols.filter
        (fun s => s.file_id == 1)).map SymbolRow.data =
        [SymbolData.mk "new" "d" 2 1 2 3 4 1 2 3 4 "C"] ∧
      ∀ s ∈ (Store.mk [FileRow.mk 1 "a" 5 6]
        [SymbolRow.mk 1 1 (SymbolData.mk "new" "d" 2 1 2 3 4 1 2 3 4 "C")] 2 2).symbols,
        ∀ f ∈ [FileRow.mk 0 "a" 1 1], f.path = "a" → s.file_id ≠ f.id) :=
  ⟨by decide, by
    have h := insertFileAndSymbols_atomic "a" 5 6
      [SymbolData.mk "new" "d" 2 1 2 3 4 1 2 3 4 "C"] none
      (Store.mk [FileRow.mk 0 "a" 1 1]
        [SymbolRow.mk 0 0 (SymbolData.mk "old" "" 1 0 0 0 0 0 0 0 0 "")] 1 1)
      (Store.mk [FileRow.mk 1 "a" 5 6]
        [SymbolRow.mk 1 1 (SymbolData.mk "new" "d" 2 1 2 3 4 1 2 3 4 "C")] 2 2)
      true (by decide) (by decide)
    exact h.1 rfl⟩

end SymbolWindow

namespace SymbolWindow

/-- C3: after `deleteFile p`, no symbol row referencing the id of any deleted
`FileEntry` (a `files` row whose path is `p`) remains: the `ON DELETE CASCADE`
clause of `createTables` removes them in the same statement. -/
theorem deleteFile_cascade (st : Store) (p : String) (f : FileRow)
    (hf : f ∈ st.files) (hp : f.path = p) :
    ∀ s ∈ (deleteFileStore p st).symbols, s.file_id ≠ f.id := by
  intro s hs
  have hmem := List.mem_filter.mp hs
  intro hid
  have : st.files.any (fun g => g.path == p && g.id == s.file_id) = true := by
    refine List.any_eq_true.mpr ⟨f, hf, ?_⟩
    simp [hp, hid]
  simp [this] at hmem

/-- Witness for C3 at a concrete store: a file at path "a" with id 1 owning a
symbol; after deletion no symbol references id 1. -/
theorem deleteFile_cascade_witness :
    (let d : SymbolData := ⟨"s", "", 0, 0, 0, 0, 0, 0, 0, 0, 0, ""⟩
     let st : Store := ⟨[⟨1, "a", 5, 7⟩], [⟨1, 1, d⟩], 2, 2⟩
     ∀ s ∈ (deleteFileStore "a" st).symbols, s.file_id ≠ 1) := by
  intro d st
  exact deleteFile_cascade st "a" ⟨1, "a", 5, 7⟩ (by simp [st]) rfl

/-- C10: `deleteFile p` for a path with no `files` row is a no-op: the
`DELETE FROM files WHERE path = ?` statement matches nothing, cascades to
nothing, and raises no error; every files row and every symbols row is kept. -/
theorem deleteFile_noop (st : Store) (p : String)
    (h : ∀ f ∈ st.files, f.path ≠ p) :
    deleteFileStore p st = st := by
  unfold deleteFileStore
  have hfiles : st.files.filter (fun f => !(f.path == p)) = st.files := by
    refine List.filter_eq_self.mpr ?_
    intro f hf
    simpa using h f hf
  have hsyms : st.symbols.filter
      (fun s => !(st.files.any (fun f => f.path == p && f.id == s.file_id))) = st.symbols := by
    refine List.filter_eq_self.mpr ?_
    intro s _
    simp only [Bool.not_eq_true']
    refine List.any_eq_false.mpr ?_
    intro f hf
    simp [h f hf]
  cases st
  simp_all

/-- Witness for C10: deleting the never-indexed path "b" from a store holding
only path "a" leaves the store unchanged. -/
theorem deleteFile_noop_witness :
    (let st : Store := ⟨[⟨1, "a", 5, 7⟩], [], 2, 1⟩
     deleteFileStore "b" st = st) := by
  exact deleteFile_noop _ "b" (by decide)

/-- Source `SymbolIndexer.processQueue`: the configured `indexingBatchSize` is read,
then `if (batchSize <= 0 || batchSize > MAX_BATCH_SIZE) batchSize = MAX_BATCH_SIZE`
with `MAX_BATCH_SIZE = 200`. -/
def effectiveBatchSize (batchSize : Int) : Int :=
  if batchSize ≤ 0 ∨ batchSize > 200 then 200 else batchSize

/-- C7: the drain loop uses the configured batch size exactly when it lies in
(0, 200], and the hard maximum 200 otherwise; in particular configured values
0 and 500 both yield 200. -/
theorem effectiveBatchSize_clamp :
    (∀ b : Int, effectiveBatchSize b = if 0 < b ∧ b ≤ 200 then b else 200) ∧
    effectiveBatchSize 0 = 200 ∧ effectiveBatchSize 500 = 200 := by
  refine ⟨fun b => ?_, by decide, by decide⟩
  unfold effectiveBatchSize
  split_ifs with h1 h2 <;> omega

end SymbolWindow

namespace SymbolWindow

/-- C9: re-running `insertFileAndSymbols` with the same path, mtime and symbol
list leaves the same store content: the same file rows (path, mtime,
indexed_at) each carrying the same attached symbol data, only the
store-assigned row ids differing, because the whole per-file set is replaced
by delete-then-insert. -/
theorem insertFileAndSymbols_idempotent (p : String) (m now : Nat)
    (L : List SymbolData) (st : Store) (hwf : WellFormed st) :
    view ((insertFileAndSymbols p m now L none
            ((insertFileAndSymbols p m now L none st).1)).1) =
      view ((insertFileAndSymbols p m now L none st).1) := by
  have h1 := insertFileAndSymbols_none_eq p m now L st
  rw [h1]
  rw [insertFileAndSymbols_none_eq]
  simp only [deleteFileStore, List.filter_append]
  set N := st.nextFileId with hN
  set M := st.nextSymId with hM
  set A := st.files.filter (fun f => !(f.path == p)) with hA
  set S := st.symbols.filter
    (fun s => !(st.files.any (fun f => f.path == p && f.id == s.file_id))) with hS
  have hAmem : ∀ f ∈ A, f ∈ st.files ∧ (f.path == p) = false := by
    intro f hf
    have := List.mem_filter.mp hf
    exact ⟨this.1, by simpa using this.2⟩
  have hSmem : ∀ s ∈ S, s.file_id < N := by
    intro s hs
    exact hwf.2 s (List.mem_filter.mp hs).1
  have hAid : ∀ f ∈ A, f.id < N := fun f hf => hwf.1 f (hAmem f hf).1
  have hAfilter : A.filter (fun f => !(f.path == p)) = A :=
    List.filter_eq_self.mpr (fun f hf => by simp [(hAmem f hf).2])
  have hnewfilter :
      [FileRow.mk N p m now].filter (fun f => !(f.path == p)) = [] := by
    simp
  rw [hAfilter, hnewfilter]
  -- cascade predicate of the second run, evaluated on the first run's tables
  have hpred : ∀ s : SymbolRow,
      ((A ++ [FileRow.mk N p m now]).any
        (fun f => f.path == p && f.id == s.file_id)) = (N == s.file_id) := by
    intro s
    rw [List.any_append]
    have : A.any (fun f => f.path == p && f.id == s.file_id) = false := by
      rw [List.any_eq_false]
      intro f hf
      simp [(hAmem f hf).2]
    rw [this]
    simp
  have hSfilter : S.filter
      (fun s => !((A ++ [FileRow.mk N p m now]).any
        (fun f => f.path == p && f.id == s.file_id))) = S := by
    refine List.filter_eq_self.mpr ?_
    intro s hs
    rw [hpred s]
    have := hSmem s hs
    simp
    omega
  have hmkfilter : (mkRows N L M).filter
      (fun s => !((A ++ [FileRow.mk N p m now]).any
        (fun f => f.path == p && f.id == s.file_id))) = [] := by
    rw [List.filter_eq_nil_iff]
    intro r hr
    rw [hpred r]
    simp [mkRows_file_id N L M r hr]
  rw [hSfilter, hmkfilter]
  simp only [List.append_nil]
  -- now both sides are explicit stores; compare views row by row
  unfold view
  simp only [List.map_append, List.filter_append, List.nil_append]
  congr 1
  · refine List.map_congr_left ?_
    intro f hf
    have hid := hAid f hf
    have e1 : (mkRows (N + 1) L (M + L.length)).filter
        (fun s => s.file_id == f.id) = [] := by
      refine mkRows_filter_ne _ _ _ _ ?_
      omega
    have e2 : (mkRows N L M).filter (fun s => s.file_id == f.id) = [] := by
      refine mkRows_filter_ne _ _ _ _ ?_
      omega
    simp only [List.filter_append, e1, e2, List.map_nil, List.append_nil]
  · have eS1 : S.filter (fun s => s.file_id == N + 1) = [] := by
      rw [List.filter_eq_nil_iff]
      intro s hs
      have := hSmem s hs
      simp
      omega
    have eS2 : S.filter (fun s => s.file_id == N) = [] := by
      rw [List.filter_eq_nil_iff]
      intro s hs
      have := hSmem s hs
      simp
      omega
    simp only [List.map_cons, List.map_nil, List.filter_append, eS1, eS2,
      List.filter_nil, List.nil_append, List.append_nil,
      mkRows_filter_eq, mkRows_map_data]

/-- Witness for C9: running the replacement twice on a concrete store yields
the same view as running it once. -/
theorem insertFileAndSymbols_idempotent_witness :
    WellFormed (Store.mk [FileRow.mk 0 "a" 1 1]
      [SymbolRow.mk 0 0 (SymbolData.mk "old" "" 1 0 0 0 0 0 0 0 0 "")] 1 1) ∧
    view ((insertFileAndSymbols "a" 5 6
        [SymbolData.mk "new" "d" 2 1 2 3 4 1 2 3 4 "C"] none
        ((insertFileAndSymbols "a" 5 6
          [SymbolData.mk "new" "d" 2 1 2 3 4 1 2 3 4 "C"] none
          (Store.mk [FileRow.mk 0 "a" 1 1]
            [SymbolRow.mk 0 0 (SymbolData.mk "old" "" 1 0 0 0 0 0 0 0 0 "")] 1 1)).1)).1) =
      view ((insertFileAndSymbols "a" 5 6
        [SymbolData.mk "new" "d" 2 1 2 3 4 1 2 3 4 "C"] none
        (Store.mk [FileRow.mk 0 "a" 1 1]
          [SymbolRow.mk 0 0 (SymbolData.mk "old" "" 1 0 0 0 0 0 0 0 0 "")] 1 1)).1) :=
  ⟨by decide, insertFileAndSymbols_idempotent "a" 5 6
    [SymbolData.mk "new" "d" 2 1 2 3 4 1 2 3 4 "C"]
    (Store.mk [FileRow.mk 0 "a" 1 1]
      [SymbolRow.mk 0 0 (SymbolData.mk "old" "" 1 0 0 0 0 0 0 0 0 "")] 1 1)
    (by decide)⟩

end SymbolWindow

namespace SymbolWindow

/-! ### `SymbolDatabase.search`

`search(query, limit, offset)` splits the query on whitespace
(`query.split(/\s+/).filter(t => t.length > 0)`), builds for each token the
pattern `'%' + token + '%'` — without escaping `%` or `_` — and evaluates
`WHERE (name LIKE ? OR container_name LIKE ?) AND ...` joined with the files
table, `ORDER BY s.name ASC, f.path ASC`, `LIMIT ? OFFSET ?`.  SQLite `LIKE`
is case-insensitive for the ASCII letters by default; `%` matches any
sequence, `_` any single character.  Splitting on the regex `\s+` and
dropping empty strings yields the same token list as splitting at every
single whitespace character and dropping empty strings, which is how
`splitWsAux` proceeds. -/

/-- Case folding used by SQLite `LIKE`: ASCII letters only (`Char.toLower`
lowers exactly the ASCII range). -/
def charEqCI (a b : Char) : Bool := a.toLower == b.toLower

/-- SQLite `LIKE` pattern matching against a string, both as character lists:
`%` matches any (possibly empty) sequence, `_` exactly one character, any
other pattern character matches case-insensitively.  The fuel argument only
drives the recursion; every step shortens `pattern ++ s`, so the fuel chosen
by `likeMatch` is never exhausted. -/
def likeMatchF : Nat → List Char → List Char → Bool
  | 0, _, _ => false
  | _ + 1, [], s => s.isEmpty
  | fuel + 1, '%' :: ps, s =>
    likeMatchF fuel ps s ||
      (match s with
       | [] => false
       | _ :: cs => likeMatchF fuel ('%' :: ps) cs)
  | fuel + 1, '_' :: ps, s =>
    (match s with
     | [] => false
     | _ :: cs => likeMatchF fuel ps cs)
  | fuel + 1, c :: ps, s =>
    (match s with
     | [] => false
     | d :: ds => charEqCI c d && likeMatchF fuel ps ds)

/-- SQLite `LIKE`: `likeMatch pattern s`. -/
def likeMatch (ps s : List Char) : Bool := likeMatchF (ps.length + s.length + 1) ps s

/-- Source `query.split(/\s+/)` on a character list, accumulating the current chunk
in reverse. -/
def splitWsAux : List Char → List Char → List String
  | [], acc => [String.mk acc.reverse]
  | c :: cs, acc =>
    if c.isWhitespace then String.mk acc.reverse :: splitWsAux cs []
    else splitWsAux cs (c :: acc)

/-- Source `query.split(/\s+/).filter(t => t.length > 0)`. -/
def searchTokens (q : String) : List String :=
  (splitWsAux q.data []).filter (fun t => t.length > 0)

/-- One result row of `search`: `SELECT s.*, f.path as file_path`. -/
structure SearchRow where
  sym : SymbolRow
  file_path : String
deriving DecidableEq, Repr

/-- The per-token pattern `` `%${token}%` `` built by `search` — the token is
interpolated with no escaping. -/
def likePattern (tok : String) : List Char := '%' :: (tok.data ++ ['%'])

/-- One conjunct `(name LIKE ? OR container_name LIKE ?)` of the WHERE clause. -/
def rowMatchesToken (r : SearchRow) (tok : String) : Bool :=
  likeMatch (likePattern tok) r.sym.data.name.data ||
  likeMatch (likePattern tok) r.sym.data.container_name.data

/-- Source `FROM symbols s JOIN files f ON s.file_id = f.id`: every symbol row paired
with the path of its (unique, by primary key) owning file row. -/
def joinRows (st : Store) : List SearchRow :=
  st.symbols.filterMap (fun s =>
    (st.files.find? (fun f => f.id == s.file_id)).map (fun f => ⟨s, f.path⟩))

/-- The WHERE clause: all token conditions conjoined with AND. -/
def searchWhere (st : Store) (toks : List String) : List SearchRow :=
  (joinRows st).filter (fun r => toks.all (fun t => rowMatchesToken r t))

/-- Source `ORDER BY s.name ASC, f.path ASC` under SQLite's BINARY collation
(codepoint order, which is `String`'s order). -/
def rowLe (a b : SearchRow) : Bool :=
  if a.sym.data.name == b.sym.data.name then decide (a.file_path ≤ b.file_path)
  else decide (a.sym.data.name < b.sym.data.name)

def insertRowSorted (r : SearchRow) : List SearchRow → List SearchRow
  | [] => [r]
  | x :: xs => if rowLe r x then r :: x :: xs else x :: insertRowSorted r xs

def sortRows : List SearchRow → List SearchRow
  | [] => []
  | r :: rs => insertRowSorted r (sortRows rs)

/-- Source `SymbolDatabase.search(query, limit, offset)`. -/
def search (st : Store) (q : String) (limit offset : Nat) : List SearchRow :=
  let toks := searchTokens q
  if toks.isEmpty then []
  else ((sortRows (searchWhere st toks)).drop offset).take limit

/-- Case-insensitive (ASCII folding) prefix test, the literal-substring
notion the spec's "case-insensitive substring" refers to. -/
def prefixCI : List Char → List Char → Bool
  | [], _ => true
  | _ :: _, [] => false
  | n :: ns, h :: hs => charEqCI n h && prefixCI ns hs

def substrCI : List Char → List Char → Bool
  | nd, [] => prefixCI nd []
  | nd, h :: hs => prefixCI nd (h :: hs) || substrCI nd hs

/-- Predicate `isSubstringCI needle hay`: `needle` occurs literally (up to ASCII case)
inside `hay`. -/
def isSubstringCI (needle hay : String) : Bool := substrCI needle.data hay.data

end SymbolWindow

namespace SymbolWindow

/-- C2 (code bug): `search` interpolates tokens into the LIKE pattern without
escaping, so `%` in a query token acts as a wildcard.  With one symbol named
"1000", the query "100%" returns that symbol even though "100%" is not a
literal case-insensitive substring of "1000" (nor of the empty container
name) — exactly the spurious match the repository's own SPEC.md sanitization
rule ("searching for 100% should not match 1000") forbids. -/
theorem search_unescaped_wildcard_bug :
    search
        (Store.mk [FileRow.mk 1 "f.ts" 0 0]
          [SymbolRow.mk 1 1 (SymbolData.mk "1000" "" 0 0 0 0 0 0 0 0 0 "")] 2 2)
        "100%" 10 0 =
      [SearchRow.mk (SymbolRow.mk 1 1 (SymbolData.mk "1000" "" 0 0 0 0 0 0 0 0 0 "")) "f.ts"] ∧
    isSubstringCI "100%" "1000" = false ∧ isSubstringCI "100%" "" = false := by
  decide

/-- C4 counterexample: the row–token match is SQLite LIKE with the token's
wildcards active, not literal substring containment.  A symbol named "axb" is
in the pre-pagination result set of the single-token query "a_b", although
"a_b" is not a case-insensitive substring of "axb" or of its empty container
name, so the claimed "iff literal substring" characterization is false. -/
theorem search_substring_iff_cex :
    SearchRow.mk (SymbolRow.mk 1 1 (SymbolData.mk "axb" "" 0 0 0 0 0 0 0 0 0 "")) "f.ts" ∈
      searchWhere
        (Store.mk [FileRow.mk 1 "f.ts" 0 0]
          [SymbolRow.mk 1 1 (SymbolData.mk "axb" "" 0 0 0 0 0 0 0 0 0 "")] 2 2)
        (searchTokens "a_b") ∧
    isSubstringCI "a_b" "axb" = false ∧ isSubstringCI "a_b" "" = false := by
  decide

/-- C4 (amended): `search` tokenizes the query on whitespace, returns the
empty list when no token remains, and otherwise a joined symbol row is in the
pre-pagination result set iff every token's unescaped LIKE pattern
`%token%` matches the row's name or container name (conjunction over
tokens). -/
theorem search_tokenized_like_conjunction (st : Store) (q : String)
    (limit offset : Nat) :
    (searchTokens q = [] → search st q limit offset = []) ∧
    (∀ r, r ∈ searchWhere st (searchTokens q) ↔
      (r ∈ joinRows st ∧ ∀ t ∈ searchTokens q, rowMatchesToken r t = true)) := by
  constructor
  · intro h
    unfold search
    simp [h]
  · intro r
    constructor
    · intro hr
      have hm := List.mem_filter.mp hr
      exact ⟨hm.1, fun t ht => List.all_eq_true.mp hm.2 t ht⟩
    · rintro ⟨h1, h2⟩
      exact List.mem_filter.mpr ⟨h1, List.all_eq_true.mpr h2⟩

/-- Witness for C4's amended theorem: a whitespace-only query yields no
results regardless of store contents. -/
theorem search_tokenized_like_conjunction_witness :
    search (Store.mk [FileRow.mk 1 "f.ts" 0 0]
      [SymbolRow.mk 1 1 (SymbolData.mk "axb" "" 0 0 0 0 0 0 0 0 0 "")] 2 2)
      "  " 5 0 = [] :=
  (search_tokenized_like_conjunction _ "  " 5 0).1 (by decide)

end SymbolWindow

namespace SymbolWindow

/-! ### `SymbolIndexer.syncIndex`

The warm-start sync builds `workspaceFileMap` (a JS `Map` keyed by `fsPath`)
from discovery, loads `dbFiles = db.getFiles()` (a `Map` keyed by `path`,
later rows overwriting earlier ones), queues every discovered file with no DB
record, stat-checks the rest in batches of 100 and queues those with
`stat.mtime > dbRecord.mtime + 1000`, deletes every DB path absent from the
workspace map, and finally enqueues the collected uris, skipping any already
in the dedup set.  A workspace file is modelled as a `(path, mtime)` pair
(the `fs.stat` result); batching the stat checks and the completion order of
`Promise.all` only permute `toIndex`, so the queue is characterized by
membership. -/

/-- Source `db.getFiles()` lookup: the map is filled by iterating all `files` rows,
so for a duplicated path the last row wins (paths are UNIQUE in the schema,
making this moot in practice). -/
def dbLookup (st : Store) (p : String) : Option FileRow :=
  st.files.foldl (fun acc f => if f.path == p then some f else acc) none

/-- The JS `Map` built from the discovery list: first-insertion order, later
mtimes overwrite earlier ones for the same path. -/
def wsEntries (ws : List (String × Nat)) : List (String × Nat) :=
  ws.foldl (fun acc wf =>
    if acc.any (fun e => e.1 == wf.1)
    then acc.map (fun e => if e.1 == wf.1 then (e.1, wf.2) else e)
    else acc ++ [wf]) []

/-- The `toIndex` list of `syncIndex`: discovered files without a DB record,
then files whose fresh stat mtime exceeds the stored mtime by more than the
1000 ms tolerance (`stat.mtime > item.dbMtime + 1000`). -/
def syncToIndex (ws : List (String × Nat)) (st : Store) : List String :=
  let wsm := wsEntries ws
  ((wsm.filter (fun wf => (dbLookup st wf.1).isNone)).map Prod.fst) ++
  ((wsm.filter (fun wf =>
      match dbLookup st wf.1 with
      | some r => decide (r.mtime + 1000 < wf.2)
      | none => false)).map Prod.fst)

/-- The deletion pass of `syncIndex`: `db.deleteFile(path)` for every stored
path absent from the workspace map. -/
def syncDeletes (ws : List (String × Nat)) (st : Store) : Store :=
  st.files.foldl (fun acc f =>
    if ws.any (fun w => w.1 == f.path) then acc else deleteFileStore f.path acc) st

/-- The final enqueue loop of `syncIndex`: push each uri unless the dedup set
already holds it. -/
def enqueueAll (toIndex : List String) (queue : List String) : List String :=
  toIndex.foldl (fun q u => if q.contains u then q else q ++ [u]) queue

/-- One `syncIndex` pass over a store and an existing queue. -/
def syncIndexRun (ws : List (String × Nat)) (st : Store) (queue : List String) :
    Store × List String :=
  (syncDeletes ws st, enqueueAll (syncToIndex ws st) queue)

theorem enqueueAll_mem (t : List String) (q0 : List String) (p : String) :
    p ∈ enqueueAll t q0 ↔ p ∈ q0 ∨ p ∈ t := by
  induction t generalizing q0 with
  | nil => simp [enqueueAll]
  | cons u rest ih =>
    unfold enqueueAll
    simp only [List.foldl_cons]
    by_cases hc : q0.contains u
    · rw [if_pos hc]
      rw [show (List.foldl (fun q u => if q.contains u then q else q ++ [u]) q0 rest) =
        enqueueAll rest q0 from rfl, ih]
      constructor
      · rintro (h | h)
        · exact Or.inl h
        · exact Or.inr (List.mem_cons_of_mem u h)
      · rintro (h | h)
        · exact Or.inl h
        · rcases List.mem_cons.mp h with h | h
          · subst h
            exact Or.inl (by simpa using hc)
          · exact Or.inr h
    · rw [if_neg hc]
      rw [show (List.foldl (fun q u => if q.contains u then q else q ++ [u]) (q0 ++ [u]) rest) =
        enqueueAll rest (q0 ++ [u]) from rfl, ih]
      simp only [List.mem_append, List.mem_singleton, List.mem_cons]
      tauto

theorem dbLookup_eq_none (st : Store) (p : String)
    (h : ∀ f ∈ st.files, f.path ≠ p) : dbLookup st p = none := by
  unfold dbLookup
  suffices H : ∀ (fl : List FileRow) (acc : Option FileRow), (∀ f ∈ fl, f.path ≠ p) →
      fl.foldl (fun acc f => if f.path == p then some f else acc) acc = acc from
    H st.files none h
  intro fl
  induction fl with
  | nil => intro acc _; rfl
  | cons f fl ih =>
    intro acc hall
    simp only [List.foldl_cons]
    rw [if_neg (by simpa using hall f (List.mem_cons_self f fl))]
    exact ih acc (fun g hg => hall g (List.mem_cons_of_mem f hg))

theorem syncDeletes_files_aux (ws : List (String × Nat)) :
    ∀ (fl : List FileRow) (acc : Store),
      (fl.foldl (fun acc f =>
        if ws.any (fun w => w.1 == f.path) then acc
        else deleteFileStore f.path acc) acc).files =
      acc.files.filter (fun r =>
        fl.all (fun f => (ws.any (fun w => w.1 == f.path)) || !(r.path == f.path))) := by
  intro fl
  induction fl with
  | nil =>
    intro acc
    simp
  | cons f fl ih =>
    intro acc
    simp only [List.foldl_cons]
    by_cases hc : ws.any (fun w => w.1 == f.path) = true
    · rw [if_pos hc, ih]
      apply List.filter_congr
      intro r _
      simp [hc, List.all_cons]
    · rw [if_neg hc, ih]
      have hcf : ws.any (fun w => w.1 == f.path) = false :=
        Bool.eq_false_iff.mpr hc
      show ((deleteFileStore f.path acc).files).filter _ = _
      rw [deleteFileStore]
      simp only [List.filter_filter]
      apply List.filter_congr
      intro r _
      simp only [List.all_cons, hcf, Bool.false_or]
      cases hx : (r.path == f.path) <;> simp [hx]

theorem syncDeletes_files (ws : List (String × Nat)) (st : Store) :
    (syncDeletes ws st).files =
      st.files.filter (fun f => ws.any (fun w => w.1 == f.path)) := by
  rw [syncDeletes, syncDeletes_files_aux]
  apply List.filter_congr
  intro r hr
  by_cases hc : ws.any (fun w => w.1 == r.path) = true
  · rw [hc]
    rw [List.all_eq_true]
    intro f hf
    by_cases hp : r.path = f.path
    · have : ws.any (fun w => w.1 == f.path) = true := by rw [← hp]; exact hc
      simp [this]
    · simp [hp]
  · have hcf : ws.any (fun w => w.1 == r.path) = false :=
      Bool.eq_false_iff.mpr hc
    rw [hcf]
    rw [List.all_eq_false]
    refine ⟨r, hr, ?_⟩
    simp [hcf]

end SymbolWindow

namespace SymbolWindow

/-- C5 counterexample: the tolerance check is one-sided
(`stat.mtime > dbMtime + 1000`).  With stored mtime 5000 and current mtime
100 the two differ by 4900 > 1000, yet `syncIndex` does not queue the file —
so "queued whenever the mtimes differ by more than the tolerance" is false
for a file whose mtime moved backwards. -/
theorem syncIndex_tolerance_cex :
    "A" ∉ syncToIndex [("A", 100)] (Store.mk [FileRow.mk 0 "A" 5000 0] [] 1 1) ∧
    dbLookup (Store.mk [FileRow.mk 0 "A" 5000 0] [] 1 1) "A" =
      some (FileRow.mk 0 "A" 5000 0) ∧
    (5000 : Nat) - 100 > 1000 := by
  decide

/-- C5 (amended): one `syncIndex` pass queues exactly (a) every discovered
file with no store record and (b) every file present in both whose fresh
mtime exceeds the stored mtime by more than the 1000 ms tolerance (a strictly
one-sided check); every stored file absent from discovery is deleted during
the pass and never queued.  `ws` is the discovered `(path, mtime)` set; the
hypothesis says its paths are distinct (discovery enumerates each file once),
so the JS `Map` built from it is the identity re-listing. -/
theorem syncIndex_reconciliation (ws : List (String × Nat)) (st : Store)
    (hde : wsEntries ws = ws) :
    (∀ p, p ∈ (syncIndexRun ws st []).2 ↔
      ∃ m, (p, m) ∈ ws ∧
        (dbLookup st p = none ∨ ∃ r, dbLookup st p = some r ∧ r.mtime + 1000 < m)) ∧
    (∀ f ∈ st.files, (∀ w ∈ ws, w.1 ≠ f.path) →
      f.path ∉ (syncIndexRun ws st []).2 ∧
      dbLookup (syncIndexRun ws st []).1 f.path = none) ∧
    (∀ g, g ∈ (syncIndexRun ws st []).1.files ↔
      (g ∈ st.files ∧ ∃ w ∈ ws, w.1 = g.path)) := by
  have htoIdx : ∀ p, p ∈ syncToIndex ws st ↔
      ∃ m, (p, m) ∈ ws ∧
        (dbLookup st p = none ∨ ∃ r, dbLookup st p = some r ∧ r.mtime + 1000 < m) := by
    intro p
    unfold syncToIndex
    rw [hde]
    simp only [List.mem_append, List.mem_map, List.mem_filter]
    constructor
    · rintro (⟨⟨a, m⟩, ⟨hmem, hpred⟩, hfst⟩ | ⟨⟨a, m⟩, ⟨hmem, hpred⟩, hfst⟩)
      · cases hfst
        exact ⟨m, hmem, Or.inl (by simpa using hpred)⟩
      · cases hfst
        cases hdb : dbLookup st a with
        | none => rw [hdb] at hpred; simp at hpred
        | some r =>
          rw [hdb] at hpred
          simp only [decide_eq_true_eq] at hpred
          exact ⟨m, hmem, Or.inr ⟨r, rfl, hpred⟩⟩
    · rintro ⟨m, hmem, hnone | ⟨r, hsome, hlt⟩⟩
      · exact Or.inl ⟨(p, m), ⟨hmem, by simp [hnone]⟩, rfl⟩
      · exact Or.inr ⟨(p, m), ⟨hmem, by simp [hsome, hlt]⟩, rfl⟩
  refine ⟨?_, ?_, ?_⟩
  · intro p
    show p ∈ enqueueAll (syncToIndex ws st) [] ↔ _
    rw [enqueueAll_mem]
    simp only [List.not_mem_nil, false_or]
    exact htoIdx p
  · intro f hf hw
    constructor
    · show f.path ∉ enqueueAll (syncToIndex ws st) []
      rw [enqueueAll_mem]
      simp only [List.not_mem_nil, false_or]
      rw [htoIdx]
      rintro ⟨m, hmem, _⟩
      exact hw (f.path, m) hmem rfl
    · show dbLookup (syncDeletes ws st) f.path = none
      apply dbLookup_eq_none
      rw [syncDeletes_files]
      intro g hg hgp
      have hcond := (List.mem_filter.mp hg).2
      rcases List.any_eq_true.mp hcond with ⟨w, hwmem, hwp⟩
      have : w.1 = g.path := by simpa using hwp
      exact hw w hwmem (by rw [this, hgp])
  · intro g
    show g ∈ (syncDeletes ws st).files ↔ _
    rw [syncDeletes_files, List.mem_filter]
    constructor
    · rintro ⟨hmem, hcond⟩
      rcases List.any_eq_true.mp hcond with ⟨w, hwmem, hwp⟩
      exact ⟨hmem, w, hwmem, by simpa using hwp⟩
    · rintro ⟨hmem, w, hwmem, hwp⟩
      exact ⟨hmem, List.any_eq_true.mpr ⟨w, hwmem, by simpa using hwp⟩⟩

/-- Witness for C5's amended theorem — the spec's reconciliation scenario:
stored `{A: mtime 100, C: mtime 10}`, workspace `A` at mtime 2100 (drift
beyond the tolerance) and a new `B`; the pass queues A and B, and deletes C
without queueing it. -/
theorem syncIndex_reconciliation_witness :
    "A" ∈ (syncIndexRun [("A", 2100), ("B", 50)]
      (Store.mk [FileRow.mk 0 "A" 100 0, FileRow.mk 1 "C" 10 0] [] 2 1) []).2 ∧
    "B" ∈ (syncIndexRun [("A", 2100), ("B", 50)]
      (Store.mk [FileRow.mk 0 "A" 100 0, FileRow.mk 1 "C" 10 0] [] 2 1) []).2 ∧
    "C" ∉ (syncIndexRun [("A", 2100), ("B", 50)]
      (Store.mk [FileRow.mk 0 "A" 100 0, FileRow.mk 1 "C" 10 0] [] 2 1) []).2 ∧
    dbLookup ((syncIndexRun [("A", 2100), ("B", 50)]
      (Store.mk [FileRow.mk 0 "A" 100 0, FileRow.mk 1 "C" 10 0] [] 2 1) []).1) "C" = none := by
  have h := syncIndex_reconciliation [("A", 2100), ("B", 50)]
    (Store.mk [FileRow.mk 0 "A" 100 0, FileRow.mk 1 "C" 10 0] [] 2 1) (by decide)
  refine ⟨?_, ?_, ?_, ?_⟩
  · exact (h.1 "A").mpr ⟨2100, by decide, Or.inr ⟨FileRow.mk 0 "A" 100 0, by decide, by decide⟩⟩
  · exact (h.1 "B").mpr ⟨50, by decide, Or.inl (by decide)⟩
  · exact (h.2.1 (FileRow.mk 1 "C" 10 0) (by decide) (by decide)).1
  · exact (h.2.1 (FileRow.mk 1 "C" 10 0) (by decide) (by decide)).2

end SymbolWindow

namespace SymbolWindow

/-! ### `SymbolIndexer.flattenSymbols` and `SymbolIndexer.indexFile` -/

/-- A `vscode.DocumentSymbol` as returned by
`vscode.executeDocumentSymbolProvider`: name, detail, kind, full range,
selection range, and child symbols. -/
inductive DocSym where
  | mk (name detail : String) (kind : Nat)
       (rangeStartLine rangeStartChar rangeEndLine rangeEndChar : Nat)
       (selectionStartLine selectionStartChar selectionEndLine selectionEndChar : Nat)
       (children : List DocSym)

/-- Source `SymbolIndexer.flattenSymbols(symbols, parentName)`: push one record per
symbol with `container_name = parentName`, then append the flattening of its
children under `fullName = parentName ? parentName + "." + name : name`
(JS string truthiness: the empty parent contributes no separator). -/
def flattenSymbols : List DocSym → String → List SymbolData
  | [], _ => []
  | DocSym.mk nm dt k rsl rsc rel rece ssl ssc sele sece ch :: rest, parentName =>
    let containerName := parentName
    let fullName := if parentName ≠ "" then parentName ++ "." ++ nm else nm
    ⟨nm, dt, k, rsl, rsc, rel, rece, ssl, ssc, sele, sece, containerName⟩ ::
      ((if ch.length > 0 then flattenSymbols ch fullName else []) ++
        flattenSymbols rest parentName)

/-- Source `SymbolIndexer.indexFile(uri)`: stat first (a failing stat skips the file
silently), then ask the document-symbol provider — `statRes` is the stat
outcome and `extractRes` the provider outcome, `.error` meaning it threw, in
which case the catch block only logs and the store is untouched.  An absent
or empty tree still flattens to the empty row list and is persisted through
the transactional `insertFileAndSymbols` (with `stat.mtime` and
`indexed_at = Date.now()`), whose possible failure `failAt` rolls back. -/
def indexFile (p : String) (statRes : Option Nat)
    (extractRes : Except Unit (Option (List DocSym))) (now : Nat)
    (failAt : Option Nat) (st : Store) : Store :=
  match statRes with
  | none => st
  | some mtime =>
    match extractRes with
    | .error _ => st
    | .ok symsOpt =>
      let flatSymbols :=
        match symsOpt with
        | some syms => if syms.length > 0 then flattenSymbols syms "" else []
        | none => []
      (insertFileAndSymbols p mtime now flatSymbols failAt st).1

/-- C6: an empty or absent symbol tree still records the file — one `files`
row at the path with the fresh mtime and `indexed_at`, zero symbol rows
attached — and a later reconciliation over a workspace where the file's mtime
is unchanged queues nothing; whereas a throwing extraction leaves the store
exactly as it was. -/
theorem indexFile_zero_symbols_vs_failure (p : String) (m now : Nat)
    (symsOpt : Option (List DocSym)) (st : Store) (hwf : WellFormed st)
    (hempty : symsOpt = none ∨ symsOpt = some []) :
    ((indexFile p (some m) (.ok symsOpt) now none st).files.filter
        (fun f => f.path == p) = [⟨st.nextFileId, p, m, now⟩] ∧
      (indexFile p (some m) (.ok symsOpt) now none st).symbols.filter
        (fun s => s.file_id == st.nextFileId) = [] ∧
      syncToIndex [(p, m)] (indexFile p (some m) (.ok symsOpt) now none st) = []) ∧
    (∀ failAt, indexFile p (some m) (.error ()) now failAt st = st) := by
  have hflat : indexFile p (some m) (.ok symsOpt) now none st =
      (insertFileAndSymbols p m now [] none st).1 := by
    rcases hempty with h | h <;> subst h <;> rfl
  have hshape : (insertFileAndSymbols p m now [] none st).1 =
      { files := (deleteFileStore p st).files ++ [⟨st.nextFileId, p, m, now⟩]
        symbols := (deleteFileStore p st).symbols
        nextFileId := st.nextFileId + 1
        nextSymId := st.nextSymId } := by
    rw [insertFileAndSymbols_none_eq]
    simp [mkRows]
  refine ⟨⟨?_, ?_, ?_⟩, fun _ => rfl⟩
  · rw [hflat, hshape]
    simp only [deleteFileStore, List.filter_append]
    have h1 : (st.files.filter (fun f => !(f.path == p))).filter
        (fun f => f.path == p) = [] := by
      rw [List.filter_eq_nil_iff]
      intro f hf
      have := (List.mem_filter.mp hf).2
      simp_all
    rw [h1]
    simp
  · rw [hflat, hshape]
    show ((deleteFileStore p st).symbols).filter _ = []
    rw [List.filter_eq_nil_iff]
    intro s hs
    have hmem := (List.mem_filter.mp hs).1
    have hlt := hwf.2 s hmem
    simp
    omega
  · rw [hflat, hshape]
    have hdb : dbLookup
        { files := (deleteFileStore p st).files ++ [⟨st.nextFileId, p, m, now⟩]
          symbols := (deleteFileStore p st).symbols
          nextFileId := st.nextFileId + 1
          nextSymId := st.nextSymId } p = some ⟨st.nextFileId, p, m, now⟩ := by
      show List.foldl _ none (_ ++ [_]) = _
      rw [List.foldl_append]
      simp
    unfold syncToIndex
    have hws : wsEntries [(p, m)] = [(p, m)] := rfl
    rw [hws]
    simp [hdb]

/-- Witness for C6: a file with one stale symbol re-indexed with an absent
tree keeps a files row and drops all symbols; a throwing extraction on the
same store changes nothing. -/
theorem indexFile_zero_symbols_vs_failure_witness :
    WellFormed (Store.mk [FileRow.mk 0 "a" 1 1]
      [SymbolRow.mk 0 0 (SymbolData.mk "old" "" 1 0 0 0 0 0 0 0 0 "")] 1 1) ∧
    ((indexFile "a" (some 7) (.ok none) 9 none
        (Store.mk [FileRow.mk 0 "a" 1 1]
          [SymbolRow.mk 0 0 (SymbolData.mk "old" "" 1 0 0 0 0 0 0 0 0 "")] 1 1)).files.filter
        (fun f => f.path == "a") = [FileRow.mk 1 "a" 7 9] ∧
      (indexFile "a" (some 7) (.ok none) 9 none
        (Store.mk [FileRow.mk 0 "a" 1 1]
          [SymbolRow.mk 0 0 (SymbolData.mk "old" "" 1 0 0 0 0 0 0 0 0 "")] 1 1)).symbols.filter
        (fun s => s.file_id == 1) = [] ∧
      syncToIndex [("a", 7)] (indexFile "a" (some 7) (.ok none) 9 none
        (Store.mk [FileRow.mk 0 "a" 1 1]
          [SymbolRow.mk 0 0 (SymbolData.mk "old" "" 1 0 0 0 0 0 0 0 0 "")] 1 1)) = []) ∧
    (∀ failAt, indexFile "a" (some 7) (.error ()) 9 failAt
        (Store.mk [FileRow.mk 0 "a" 1 1]
          [SymbolRow.mk 0 0 (SymbolData.mk "old" "" 1 0 0 0 0 0 0 0 0 "")] 1 1) =
      Store.mk [FileRow.mk 0 "a" 1 1]
        [SymbolRow.mk 0 0 (SymbolData.mk "old" "" 1 0 0 0 0 0 0 0 0 "")] 1 1) :=
  ⟨by decide, indexFile_zero_symbols_vs_failure "a" 7 9 none
    (Store.mk [FileRow.mk 0 "a" 1 1]
      [SymbolRow.mk 0 0 (SymbolData.mk "old" "" 1 0 0 0 0 0 0 0 0 "")] 1 1)
    (by decide) (Or.inl rfl)⟩

end SymbolWindow

namespace SymbolWindow

/-- Modelled from the spec's wording for C8: "the names of its ancestors
joined with '.'". -/
def dotJoin : List String → String
  | [] => ""
  | [a] => a
  | a :: rest => a ++ "." ++ dotJoin rest

/-- Modelled from the spec's wording for C8: one record per node, parent
before its descendants, siblings in input order, `container_name` the
'.'-join of the ancestor names (empty at the root), all other fields copied
from the node. -/
def specFlatten : List DocSym → List String → List SymbolData
  | [], _ => []
  | DocSym.mk nm dt k rsl rsc rel rece ssl ssc sele sece ch :: rest, anc =>
    ⟨nm, dt, k, rsl, rsc, rel, rece, ssl, ssc, sele, sece, dotJoin anc⟩ ::
      (specFlatten ch (anc ++ [nm]) ++ specFlatten rest anc)

/-- Every symbol name in the forest is nonempty. -/
def allNamesNonempty : List DocSym → Bool
  | [] => true
  | DocSym.mk nm _ _ _ _ _ _ _ _ _ _ ch :: rest =>
    !(nm == "") && allNamesNonempty ch && allNamesNonempty rest

/-- Number of nodes of a forest, used as an induction measure. -/
def forestSize : List DocSym → Nat
  | [] => 0
  | DocSym.mk _ _ _ _ _ _ _ _ _ _ _ ch :: rest => 1 + forestSize ch + forestSize rest

theorem dotJoin_append (anc : List String) (n : String) :
    dotJoin (anc ++ [n]) = if anc = [] then n else dotJoin anc ++ "." ++ n := by
  induction anc with
  | nil => rfl
  | cons a rest ih =>
    cases rest with
    | nil => rfl
    | cons b t =>
      have h1 : dotJoin ((a :: b :: t) ++ [n]) = a ++ "." ++ dotJoin ((b :: t) ++ [n]) := rfl
      rw [h1, ih]
      rw [show dotJoin (a :: b :: t) = a ++ "." ++ dotJoin (b :: t) from rfl]
      simp [String.append_assoc]

theorem dotJoin_ne_empty (anc : List String) (h : ∀ a ∈ anc, a ≠ "")
    (hne : anc ≠ []) : dotJoin anc ≠ "" := by
  cases anc with
  | nil => exact absurd rfl hne
  | cons a rest =>
    cases rest with
    | nil => exact h a (by simp)
    | cons b t =>
      intro he
      have h1 : dotJoin (a :: b :: t) = a ++ "." ++ dotJoin (b :: t) := rfl
      rw [h1] at he
      have hlen := congrArg String.length he
      simp only [String.length_append] at hlen
      rw [show (".".length) = 1 from rfl, show ("".length) = 0 from rfl] at hlen
      omega

theorem flattenSymbols_eq_spec_aux (n : Nat) :
    ∀ (syms : List DocSym), forestSize syms ≤ n →
    ∀ (anc : List String), allNamesNonempty syms = true → (∀ a ∈ anc, a ≠ "") →
    flattenSymbols syms (dotJoin anc) = specFlatten syms anc := by
  induction n with
  | zero =>
    intro syms hsize
    match syms with
    | [] => intro anc _ _; simp [flattenSymbols, specFlatten]
    | DocSym.mk nm dt k rsl rsc rel rece ssl ssc sele sece ch :: rest =>
      simp [forestSize] at hsize
  | succ n ih =>
    intro syms hsize anc hnames hanc
    match syms with
    | [] => simp [flattenSymbols, specFlatten]
    | DocSym.mk nm dt k rsl rsc rel rece ssl ssc sele sece ch :: rest =>
      simp only [forestSize] at hsize
      have hszch : forestSize ch ≤ n := by omega
      have hszrest : forestSize rest ≤ n := by omega
      simp only [allNamesNonempty, Bool.and_eq_true, bne_iff_ne,
        Bool.not_eq_true', beq_eq_false_iff_ne, ne_eq] at hnames
      obtain ⟨⟨hnm, hch⟩, hrest⟩ := hnames
      rw [flattenSymbols, specFlatten]
      congr 1
      congr 1
      · cases ch with
        | nil => simp [specFlatten]
        | cons c ct =>
          have hlen : (0 : Nat) < (c :: ct).length := by simp
          rw [if_pos hlen]
          have hfull : (if dotJoin anc ≠ "" then dotJoin anc ++ "." ++ nm else nm) =
              dotJoin (anc ++ [nm]) := by
            rw [dotJoin_append]
            by_cases hA : anc = []
            · subst hA
              simp [dotJoin]
            · have hne := dotJoin_ne_empty anc hanc hA
              simp [hA, hne]
          rw [hfull]
          refine ih (c :: ct) hszch (anc ++ [nm]) hch ?_
          intro a ha
          rcases List.mem_append.mp ha with ha | ha
          · exact hanc a ha
          · rw [List.mem_singleton.mp ha]
            exact hnm
      · exact ih rest hszrest anc hrest hanc

/-- C8 counterexample: with an empty-named root symbol, the accumulated
parent path collapses instead of contributing a '.' separator: for the forest
root "" → child "B" → grandchild "G", `flattenSymbols` gives "G" the
container "B", while joining its ancestor names ["", "B"] with '.' per the
claim gives ".B" — so the two flattenings differ. -/
theorem flattenSymbols_spec_join_cex :
    flattenSymbols
        [DocSym.mk "" "" 0 0 0 0 0 0 0 0 0
          [DocSym.mk "B" "" 0 0 0 0 0 0 0 0 0
            [DocSym.mk "G" "" 0 0 0 0 0 0 0 0 0 []]]] "" ≠
      specFlatten
        [DocSym.mk "" "" 0 0 0 0 0 0 0 0 0
          [DocSym.mk "B" "" 0 0 0 0 0 0 0 0 0
            [DocSym.mk "G" "" 0 0 0 0 0 0 0 0 0 []]]] [] := by
  simp only [flattenSymbols, specFlatten, dotJoin]
  decide

/-- C8 (amended): whenever every symbol name in the tree is nonempty — so
the code's empty-parent special case coincides with the plain '.'-join —
`flattenSymbols` emits exactly the spec's flattening: one record per node in
pre-order, fields copied, `container_name` the '.'-joined ancestor names. -/
theorem flattenSymbols_matches_spec (syms : List DocSym)
    (hnames : allNamesNonempty syms = true) :
    flattenSymbols syms "" = specFlatten syms [] :=
  flattenSymbols_eq_spec_aux (forestSize syms) syms le_rfl [] hnames
    (by intro a ha; cases ha)

/-- Witness for C8's amended theorem on a two-level concrete tree. -/
theorem flattenSymbols_matches_spec_witness :
    allNamesNonempty
        [DocSym.mk "N" "" 1 0 0 0 0 0 0 0 0
          [DocSym.mk "C" "" 2 0 0 0 0 0 0 0 0
            [DocSym.mk "m" "" 3 0 0 0 0 0 0 0 0 []]],
         DocSym.mk "f" "" 4 0 0 0 0 0 0 0 0 []] = true ∧
    flattenSymbols
        [DocSym.mk "N" "" 1 0 0 0 0 0 0 0 0
          [DocSym.mk "C" "" 2 0 0 0 0 0 0 0 0
            [DocSym.mk "m" "" 3 0 0 0 0 0 0 0 0 []]],
         DocSym.mk "f" "" 4 0 0 0 0 0 0 0 0 []] "" =
      specFlatten
        [DocSym.mk "N" "" 1 0 0 0 0 0 0 0 0
          [DocSym.mk "C" "" 2 0 0 0 0 0 0 0 0
            [DocSym.mk "m" "" 3 0 0 0 0 0 0 0 0 []]],
         DocSym.mk "f" "" 4 0 0 0 0 0 0 0 0 []] [] :=
  ⟨by simp [allNamesNonempty], flattenSymbols_matches_spec _ (by simp [allNamesNonempty])⟩

end SymbolWindow
